import Mathlib

/-!
Verification of the qpass password-store frontend (xolox/python-qpass).

The development shallowly embeds the pure core of `qpass/__init__.py`:
the two-tier search algorithm (`simple_search`, `fuzzy_search`,
`smart_search`), entry selection (`select_entry`), entry formatting
(`format_text` together with the `KEY_VALUE_PATTERN` regular expression),
store listing (`ensure_directory_exists`, the `entries` property) and the
natural sort used by the catalog.  External effects (the filesystem, the
`find` subprocess, the interactive prompt) are modelled by explicit
parameters, and external helper functions from the `humanfriendly` and
`natsort` libraries are modelled from their documented behaviour, as noted
in the doc comment of each such definition.
-/

namespace Qpass

/-- Lowercasing of one character.  Embeds the case folding performed by the
Python `str.lower` method and by the `re.IGNORECASE` flag, restricted to
ASCII (the range on which all of them agree). -/
def lowerChar (c : Char) : Char := c.toLower

/-- Lowercase every character of a string, as `kw.lower()` and
`entry.name.lower()` do in `AbstractPasswordStore.simple_search`.  The
result is kept as a list of characters. -/
def lowerStr (s : String) : List Char := s.data.map lowerChar

/-- Does the second list start with the first one?  Helper for the
substring test below. -/
def startsWithChars : List Char → List Char → Bool
  | [], _ => true
  | _ :: _, [] => false
  | n :: ns, c :: cs => n == c && startsWithChars ns cs

/-- Substring containment on character lists; embeds the Python membership
test `kw in normalized` used by `AbstractPasswordStore.simple_search`. -/
def containsChars : List Char → List Char → Bool
  | needle, [] => needle.isEmpty
  | needle, c :: cs => startsWithChars needle (c :: cs) || containsChars needle cs

/-- A password store entry.  `name` and `text` embed the properties of the
same names of the Python class `PasswordEntry`; in the source `text` is the
output of the external `pass show <name>` command, fetched lazily and
cached, which we model as a plain field holding that output. -/
structure PasswordEntry where
  name : String
  text : String
  deriving DecidableEq

/-- Embeds `AbstractPasswordStore.simple_search`: keep the entries whose
lowercased name contains every lowercased keyword as a substring. -/
def simple_search (entries : List PasswordEntry) (keywords : List String) :
    List PasswordEntry :=
  let kws := keywords.map lowerStr
  entries.filter fun e => kws.all fun kw => containsChars kw (lowerStr e.name)

/-- Embeds `create_fuzzy_pattern`: every character of the token is passed
through `re.escape`, so the compiled regular expression is exactly the
sequence of the token characters as literals, separated by `.*` wildcards.
The compiled pattern is therefore fully described by its list of literal
characters. -/
def create_fuzzy_pattern (pattern : String) : List Char := pattern.data

/-- Embeds the behaviour of `compiled.search(name)` for a compiled pattern
of the shape `c1 .* c2 .* ... .* ck` (as built by `create_fuzzy_pattern`)
once the first literal has been matched: each further literal is matched
case-insensitively, and the `.*` wildcard standing between two literals
matches any run of characters that contains no newline, because the Python
`.` metacharacter does not match a newline when `re.DOTALL` is not set.
The two disjuncts perform the backtracking of the regular expression
engine: either match the next literal here, or extend the wildcard run. -/
def fuzzyTail : List Char → List Char → Bool
  | [], _ => true
  | _ :: _, [] => false
  | p :: ps, c :: cs =>
      (lowerChar p == lowerChar c && fuzzyTail ps cs)
        || (c != '\n' && fuzzyTail (p :: ps) cs)

/-- Embeds the unanchored `compiled.search(name)` call of
`AbstractPasswordStore.fuzzy_search`: the search tries every start
position of the subject for the first literal of the fuzzy pattern. -/
def fuzzySearchOne : List Char → List Char → Bool
  | [], _ => true
  | _ :: _, [] => false
  | p :: ps, c :: cs =>
      (lowerChar p == lowerChar c && fuzzyTail ps cs) || fuzzySearchOne (p :: ps) cs

/-- Embeds `AbstractPasswordStore.fuzzy_search`: keep the entries whose
name is matched by every compiled fuzzy pattern. -/
def fuzzy_search (entries : List PasswordEntry) (filters : List String) :
    List PasswordEntry :=
  let patterns := filters.map create_fuzzy_pattern
  entries.filter fun e => patterns.all fun p => fuzzySearchOne p e.name.data

/-- The domain errors of `qpass.exceptions` that the embedded code can
raise. -/
inductive StoreError where
  | missingPasswordStore
  | emptyPasswordStore
  | noMatchingPassword
  deriving DecidableEq

/-- Embeds `AbstractPasswordStore.smart_search`: try the simple search
first, fall back to the fuzzy search when it produced nothing, and raise
`NoMatchingPasswordError` or `EmptyPasswordStoreError` when both searches
came up empty, depending on whether the store holds any entries. -/
def smart_search (entries : List PasswordEntry) (arguments : List String) :
    Except StoreError (List PasswordEntry) :=
  let found := simple_search entries arguments
  let found := if found.isEmpty then fuzzy_search entries arguments else found
  if found.isEmpty then
    if 0 < entries.length then
      Except.error StoreError.noMatchingPassword
    else
      Except.error StoreError.emptyPasswordStore
  else
    Except.ok found

/-- Embeds `AbstractPasswordStore.select_entry`.  The interactive
`prompt_for_choice` call is modelled by the function parameter `choose`,
which receives the list of labels shown to the user and returns the chosen
label.  The Python indexing operations (`matches[...]` and
`labels.index(...)`) are modelled with the partial lookup `List.get?`, so
that any out-of-range access would show up as a `none` result. -/
def select_entry (entries : List PasswordEntry) (arguments : List String)
    (choose : List String → String) : Except StoreError (Option PasswordEntry) :=
  match smart_search entries arguments with
  | Except.error e => Except.error e
  | Except.ok found =>
      if 1 < found.length then
        Except.ok (found.get?
          ((found.map PasswordEntry.name).indexOf (choose (found.map PasswordEntry.name))))
      else
        Except.ok (found.get? 0)

/-! ### Entry formatting -/

/-- Whitespace test; embeds the character class shared by the Python
methods `str.strip`, `str.isspace` and `str.split()` and by the regular
expression classes `\s` and `\S`, restricted to the control characters
that occur in password entries. -/
def isWS (c : Char) : Bool := c.isWhitespace

/-- Embeds `str.splitlines()` for text whose line breaks are `"\n"`: the
text is cut at every newline, the newline characters are discarded, and a
trailing newline does not produce a final empty line. -/
def linesOf : List Char → List (List Char)
  | [] => []
  | c :: rest =>
      if c = '\n' then [] :: linesOf rest
      else
        match linesOf rest with
        | [] => [[c]]
        | l :: ls => (c :: l) :: ls

/-- Embeds `str.splitlines(True)`: like `linesOf`, but every line keeps its
terminating newline character. -/
def linesKeepOf : List Char → List (List Char)
  | [] => []
  | c :: rest =>
      if c = '\n' then ['\n'] :: linesKeepOf rest
      else
        match linesKeepOf rest with
        | [] => [[c]]
        | l :: ls => (c :: l) :: ls

/-- Embeds the Python expression the newline join of the lines. -/
def joinNL : List (List Char) → List Char
  | [] => []
  | [l] => l
  | l :: ls => l ++ '\n' :: joinNL ls

/-- Plain concatenation of kept-ends lines (the Python `''.join`). -/
def joinAll : List (List Char) → List Char
  | [] => []
  | l :: ls => l ++ joinAll ls

/-- Modelled from the external humanfriendly library: a line is empty when
it has no characters or consists of whitespace only (`is_empty_line`). -/
def emptyLine (l : List Char) : Bool := l.all isWS

/-- Modelled from the external humanfriendly library: `trim_empty_lines`
splits the text into lines keeping the line breaks, removes leading and
trailing empty lines, and concatenates the remaining lines. -/
def trim_empty_lines (cs : List Char) : List Char :=
  joinAll ((((linesKeepOf cs).dropWhile emptyLine).reverse.dropWhile emptyLine).reverse)

/-- Embeds the Python method `str.strip()`: remove leading and trailing
whitespace. -/
def pyStrip (cs : List Char) : List Char :=
  ((cs.dropWhile isWS).reverse.dropWhile isWS).reverse

/-- Embeds the Python method `str.isspace()`: true exactly when the string
is non-empty and consists of whitespace only. -/
def pyIsSpace (cs : List Char) : Bool := !cs.isEmpty && cs.all isWS

/-- Embeds the Python call `value.split()`: split on runs of whitespace,
discarding empty tokens. -/
def pySplitWS : List Char → List (List Char)
  | [] => []
  | [c] => if isWS c then [] else [[c]]
  | c :: d :: rest =>
      if isWS c then pySplitWS (d :: rest)
      else
        match pySplitWS (d :: rest) with
        | [] => [[c]]
        | t :: ts => if isWS d then [c] :: t :: ts else (c :: t) :: ts

/-- Modelled from the external humanfriendly library (`ansi_wrap` under its
default configuration): wrap the text in an ANSI escape sequence carrying
the given style code and append the reset sequence.  Code 1 is bold, code 4
is underline, and code 32 is the default highlight color. -/
def ansi_wrap (code : List Char) (cs : List Char) : List Char :=
  Char.ofNat 27 :: '[' :: code ++ 'm' :: cs ++ [Char.ofNat 27, '[', '0', 'm']

/-- Embeds the Python split `text.split(sep)` for a single-character
separator: all pieces are kept, including empty ones. -/
def splitOnChar (sep : Char) : List Char → List (List Char)
  | [] => [[]]
  | c :: rest =>
      if c = sep then [] :: splitOnChar sep rest
      else
        match splitOnChar sep rest with
        | [] => [[c]]
        | p :: ps => (c :: p) :: ps

/-- Embeds the Python join `sep.join(pieces)`: concatenate the pieces with
the separator between consecutive pieces. -/
def joinSep (sep : List Char) : List (List Char) → List Char
  | [] => []
  | [t] => t
  | t :: ts => t ++ sep ++ joinSep sep ts

/-- Indent a line with two spaces when padding is on; an abbreviation for
the last step of `highlight_line`, used in the statements below. -/
def padIndent (padding : Bool) (l : List Char) : List Char :=
  if padding then ' ' :: ' ' :: l else l

/-- Modelled from the external humanfriendly library: `split(text, sep)`
splits on the separator, drops the pieces that are empty or whitespace
only, and strips the remaining pieces. -/
def hfSplit (sep : Char) (cs : List Char) : List (List Char) :=
  ((splitOnChar sep cs).filter fun t => !(t.isEmpty || pyIsSpace t)).map pyStrip

/-- Embeds the title computation of `PasswordEntry.format_text`:
`' / '.join(split(self.name, '/'))`. -/
def mkTitle (name : List Char) : List Char :=
  joinSep [' ', '/', ' '] (hfSplit '/' name)

/-- One candidate split of a line for `KEY_VALUE_PATTERN`
(`^(.+\S):\s+(\S.*)$`): position `i` is viable when the character at `i`
is a colon preceded by at least one arbitrary character and then one
non-space character, and followed by at least one whitespace character and
a non-empty remainder.  The captured groups are the text before the colon
and the remainder after the maximal whitespace run. -/
def kvTry (cs : List Char) (i : Nat) : Option (List Char × List Char) :=
  match cs.get? i, cs.get? (i - 1) with
  | some ':', some b =>
      if 2 ≤ i ∧ isWS b = false then
        (let rest := cs.drop (i + 1)
         let ws := rest.takeWhile isWS
         let g2 := rest.drop ws.length
         if ws ≠ [] ∧ g2 ≠ [] then some (cs.take i, g2) else none)
      else none
  | _, _ => none

/-- Embeds matching the compiled `KEY_VALUE_PATTERN` against one line: the
greedy `(.+\S)` group makes the regular expression engine commit to the
rightmost viable colon, so the candidate positions are tried from the
right; the result carries the two captured groups. -/
def kvMatch (cs : List Char) : Option (List Char × List Char) :=
  (List.range cs.length).reverse.findSome? (kvTry cs)

/-- Embeds the body of the per-line loop of `PasswordEntry.format_text`:
when the line matches `KEY_VALUE_PATTERN` and colors are enabled, the line
is replaced by the highlighted key, one space, and the value tokens joined
by single spaces with tokens containing `"://"` underlined; afterwards the
two-space padding indent is applied when requested. -/
def highlight_line (use_colors padding : Bool) (line : List Char) : List Char :=
  let line :=
    match kvMatch line with
    | some (g1, g2) =>
        if use_colors then
          (let key := ansi_wrap ['3', '2'] (pyStrip g1 ++ [':'])
           let toks := (pySplitWS (pyStrip g2)).map fun t =>
             if containsChars [':', '/', '/'] t then ansi_wrap ['4'] t else t
           key ++ ' ' :: joinSep [' '] toks)
        else line
    | none => line
  if padding then ' ' :: ' ' :: line else line

/-- Embeds the body computation of `PasswordEntry.format_text`: the lines
after the password line are filtered through the redaction patterns,
joined, and stripped of leading and trailing blank lines. -/
def format_body (body : List (List Char)) (filters : List (List Char → Bool)) :
    List Char :=
  trim_empty_lines (joinNL (body.filter fun l => !(filters.any fun p => p l)))

/-- Embeds the statement `text = "Password: %s\n%s" % (password, text)` of
`format_text`, guarded by the `include_password` flag. -/
def add_password (include_password : Bool) (password text : List Char) : List Char :=
  if include_password then String.data "Password: " ++ password ++ '\n' :: text
  else text

/-- Embeds the title-prepending step of `format_text`: when the text so far
is non-empty and not whitespace-only, prepend the title (bold when colors
are enabled) and an empty line. -/
def add_title (use_colors : Bool) (name text : List Char) : List Char :=
  if text ≠ [] ∧ pyIsSpace text = false then
    (if use_colors then ansi_wrap ['1'] (mkTitle name) else mkTitle name)
      ++ '\n' :: '\n' :: text
  else text

/-- Embeds the final stage of `format_text`: run every line through
`highlight_line`, join, trim the blank edges, and when padding is on wrap
the non-empty result in one leading and one trailing newline. -/
def finalize (use_colors padding : Bool) (text : List Char) : List Char :=
  let out := trim_empty_lines (joinNL ((linesOf text).map (highlight_line use_colors padding)))
  if out ≠ [] ∧ padding then '\n' :: out ++ ['\n'] else out

/-- Embeds `PasswordEntry.format_text` at the level of decoded characters,
as the composition of the steps above in source order.  The `use_colors`
parameter is the already resolved color switch (a `None` argument is
resolved in the source by terminal detection, an external effect), and each
element of `filters` models one compiled case-insensitive regular
expression by its search predicate on a line.  The Python code raises
`IndexError` when the entry text has no lines at all (`lines.pop(0)` on the
empty list), modelled by the `none` result. -/
def format_text_core (name text : List Char) (include_password use_colors padding : Bool)
    (filters : List (List Char → Bool)) : Option (List Char) :=
  match linesOf text with
  | [] => none
  | pwline :: body =>
      some (finalize use_colors padding
        (add_title use_colors name
          (add_password include_password (pyStrip pwline) (format_body body filters))))

/-- Embeds `PasswordEntry.format_text` on strings. -/
def format_text (e : PasswordEntry) (include_password use_colors padding : Bool)
    (filters : List (List Char → Bool)) : Option String :=
  (format_text_core e.name.data e.text.data include_password use_colors padding
    filters).map fun cs => String.mk cs

/-! ### Password store listing and the catalog -/

/-- The external commands the store code can run; only the directory
listing (`find -type f -name *.gpg -print0`) is relevant to the claims,
and the trace of a computation records which of them were invoked. -/
inductive ExtCall where
  | findFiles
  deriving DecidableEq

/-- Embeds `PasswordStore.ensure_directory_exists`: raise
`MissingPasswordStoreError` when the storage directory does not exist.
The filesystem test `os.path.isdir(self.directory)` is modelled by the
boolean parameter. -/
def ensure_directory_exists (directory_exists : Bool) : Except StoreError Unit :=
  if directory_exists then Except.ok ()
  else Except.error StoreError.missingPasswordStore

/-- The rightmost position of a character in a list, or `-1` when absent;
embeds the Python method `str.rfind`. -/
def rfindChar (c : Char) (cs : List Char) : Int :=
  match cs.reverse.findIdx? (fun d => d == c) with
  | none => -1
  | some i => (cs.length : Int) - 1 - i

/-- Embeds `os.path.splitext` for POSIX paths: split off the extension at
the last dot of the path, provided that dot lies in the last component and
that component has a non-dot character before it (names consisting only of
leading dots carry no extension). -/
def splitext (cs : List Char) : List Char × List Char :=
  let sepIndex := rfindChar '/' cs
  let dotIndex := rfindChar '.' cs
  if sepIndex < dotIndex then
    (if ((cs.take dotIndex.toNat).drop (sepIndex + 1).toNat).any (fun c => c != '.') then
      (cs.take dotIndex.toNat, cs.drop dotIndex.toNat)
    else (cs, []))
  else (cs, [])

/-- Embeds `os.path.normpath` for POSIX paths: collapse repeated and
trailing separators and `.` components, resolve `..` components where
possible, and preserve up to two leading slashes. -/
def normpath (cs : List Char) : List Char :=
  if cs = [] then ['.']
  else
    let initialSlashes : Nat :=
      if cs.take 1 = ['/'] then
        if cs.take 2 = ['/', '/'] ∧ cs.take 3 ≠ ['/', '/', '/'] then 2 else 1
      else 0
    let newComps := (splitOnChar '/' cs).foldl (fun acc comp =>
      if comp = [] ∨ comp = ['.'] then acc
      else if comp ≠ ['.', '.'] ∨ (initialSlashes = 0 ∧ acc = []) ∨
          acc.getLast? = some ['.', '.'] then acc ++ [comp]
      else if acc ≠ [] then acc.dropLast
      else acc) []
    let result := List.replicate initialSlashes '/' ++ joinSep ['/'] newComps
    if result = [] then ['.'] else result

/-- Embeds the loop of the `PasswordStore.entries` property that parses the
NUL-separated `find` output: split the listing on NUL bytes (with the
humanfriendly `split` helper, which strips tokens and drops blank ones),
keep the filenames whose extension is `.gpg`, and build an entry from each
normalized basename.  The lazily fetched entry text is supplied by the
`fetch` parameter. -/
def parse_listing (listing : List Char) (fetch : String → String) :
    List PasswordEntry :=
  (hfSplit (Char.ofNat 0) listing).filterMap fun filename =>
    if (splitext filename).2 = String.data ".gpg" then
      some ⟨String.mk (normpath (splitext filename).1),
        fetch (String.mk (normpath (splitext filename).1))⟩
    else none

/-- One run of the natural-sort chunking: consecutive characters of the
same class (digit or non-digit) are grouped, tagged with the class. -/
def chunkRuns : List Char → List (Bool × List Char)
  | [] => []
  | c :: rest =>
      match chunkRuns rest with
      | [] => [(c.isDigit, [c])]
      | (b, run) :: tl =>
          if c.isDigit = b then (b, c :: run) :: tl
          else (c.isDigit, [c]) :: (b, run) :: tl

/-- The numeric value of a run of decimal digits. -/
def digitsToNat (run : List Char) : Nat :=
  run.foldl (fun a c => a * 10 + (c.toNat - 48)) 0

/-- Modelled from the external natsort library under its default
configuration: the natural sort key of a string alternates text chunks and
the numeric values of digit runs, starting with a text chunk (an empty one
is prepended when the string starts with a digit), and keys compare
lexicographically with text chunks ordered by character code and digit
runs ordered as numbers. -/
def natKey (s : String) : List (Lex (Sum (List Char) Nat)) :=
  let chunks := (chunkRuns s.data).map fun br =>
    if br.1 then toLex (Sum.inr (digitsToNat br.2)) else toLex (Sum.inl br.2)
  match chunkRuns s.data with
  | (true, _) :: _ => toLex (Sum.inl []) :: chunks
  | _ => chunks

/-- The natural-sort comparison on strings derived from `natKey`. -/
def natLE (a b : String) : Bool := decide (natKey a ≤ natKey b)

/-- The natural sort applied by `natsort(passwords, key=lambda e: e.name)`
in `PasswordStore.entries` and `QuickPass.entries`; the Python `sorted` is
a stable sort, modelled by the stable `List.insertionSort` (any two stable
sorts under the same total preorder agree). -/
def natsortByName (l : List PasswordEntry) : List PasswordEntry :=
  l.insertionSort fun e1 e2 => natLE e1.name e2.name = true

/-- Embeds the `PasswordStore.entries` property: the `context` property
first runs `ensure_directory_exists` (before any external command), then
the `find` listing is captured and parsed, and the parsed entries are
naturally sorted.  `directory_exists` models `os.path.isdir`, `listing`
models the captured output of the `find` call, and the first component of
the result is the trace of invoked external commands. -/
def store_entries (directory_exists : Bool) (listing : List Char)
    (fetch : String → String) :
    List ExtCall × Except StoreError (List PasswordEntry) :=
  match ensure_directory_exists directory_exists with
  | Except.error e => ([], Except.error e)
  | Except.ok _ =>
      ([ExtCall.findFiles], Except.ok (natsortByName (parse_listing listing fetch)))

/-- Embeds the `QuickPass.entries` property: concatenate the entries of the
configured stores in store order and sort them naturally by name. -/
def quickpass_entries (stores : List (List PasswordEntry)) : List PasswordEntry :=
  natsortByName stores.flatten

/-! Helper lemmas about the substring and subsequence matchers. -/

theorem startsWithChars_iff (needle : List Char) : ∀ hay : List Char,
    startsWithChars needle hay = true ↔ ∃ rest, hay = needle ++ rest := by
  induction needle with
  | nil =>
      intro hay
      simp [startsWithChars]
  | cons n ns ih =>
      intro hay
      cases hay with
      | nil =>
          simp [startsWithChars]
      | cons c cs =>
          simp only [startsWithChars, Bool.and_eq_true, beq_iff_eq, ih cs,
            List.cons_append, List.cons.injEq]
          constructor
          · rintro ⟨rfl, rest, rfl⟩
            exact ⟨rest, rfl, rfl⟩
          · rintro ⟨rest, rfl, rfl⟩
            exact ⟨rfl, rest, rfl⟩

theorem containsChars_iff (needle : List Char) : ∀ hay : List Char,
    containsChars needle hay = true ↔ ∃ pre post, hay = pre ++ needle ++ post := by
  intro hay
  induction hay with
  | nil =>
      constructor
      · intro h
        refine ⟨[], [], ?_⟩
        have : needle = [] := by
          simpa [containsChars, List.isEmpty_iff] using h
        simp [this]
      · rintro ⟨pre, post, h⟩
        rcases List.append_eq_nil.1 h.symm with ⟨h1, h2⟩
        rcases List.append_eq_nil.1 h1 with ⟨_, h3⟩
        simp [containsChars, h3]
  | cons c cs ih =>
      simp only [containsChars, Bool.or_eq_true, startsWithChars_iff, ih]
      constructor
      · rintro (⟨rest, h⟩ | ⟨pre, post, h⟩)
        · exact ⟨[], rest, by simp [h]⟩
        · exact ⟨c :: pre, post, by simp [h]⟩
      · rintro ⟨pre, post, h⟩
        cases pre with
        | nil =>
            exact Or.inl ⟨post, by simpa using h⟩
        | cons p pre =>
            rcases List.cons.injEq .. ▸ h with ⟨rfl, h2⟩
            exact Or.inr ⟨pre, post, by simpa using h2⟩

theorem isEmpty_false_of_ne_nil {α : Type} {l : List α} (h : l ≠ []) :
    l.isEmpty = false := by
  cases l with
  | nil => exact absurd rfl h
  | cons a l => rfl

theorem cons_sublist_cons_cases {α : Type} {p c : α} {ps cs : List α} :
    (p :: ps).Sublist (c :: cs) ↔ (p = c ∧ ps.Sublist cs) ∨ (p :: ps).Sublist cs := by
  constructor
  · intro h
    cases h with
    | cons _ h => exact Or.inr h
    | cons₂ _ h => exact Or.inl ⟨rfl, h⟩
  · rintro (⟨rfl, h⟩ | h)
    · exact h.cons₂ _
    · exact h.cons _

theorem fuzzyTail_eq_sublist : ∀ cs : List Char, '\n' ∉ cs → ∀ ps : List Char,
    (fuzzyTail ps cs = true ↔ (ps.map lowerChar).Sublist (cs.map lowerChar)) := by
  intro cs
  induction cs with
  | nil =>
      intro _ ps
      cases ps with
      | nil => simp [fuzzyTail]
      | cons p ps => simp [fuzzyTail]
  | cons c cs ih =>
      intro hnl ps
      have hc : c ≠ '\n' := fun h => hnl (List.mem_cons.2 (Or.inl h.symm))
      have hcs : '\n' ∉ cs := fun h => hnl (List.mem_cons.2 (Or.inr h))
      cases ps with
      | nil => simp [fuzzyTail, List.nil_sublist]
      | cons p ps =>
          have hskip := ih hcs (p :: ps)
          have hmatch := ih hcs ps
          simp only [fuzzyTail, Bool.or_eq_true, Bool.and_eq_true, beq_iff_eq,
            bne_iff_ne, ne_eq, List.map_cons]
          rw [cons_sublist_cons_cases]
          constructor
          · rintro (⟨hpc, ht⟩ | ⟨-, ht⟩)
            · exact Or.inl ⟨hpc, hmatch.1 ht⟩
            · exact Or.inr (by simpa using hskip.1 ht)
          · rintro (⟨hpc, hsub⟩ | hsub)
            · exact Or.inl ⟨hpc, hmatch.2 hsub⟩
            · exact Or.inr ⟨hc, hskip.2 (by simpa using hsub)⟩

theorem fuzzySearchOne_eq_sublist : ∀ cs : List Char, '\n' ∉ cs → ∀ ps : List Char,
    (fuzzySearchOne ps cs = true ↔ (ps.map lowerChar).Sublist (cs.map lowerChar)) := by
  intro cs
  induction cs with
  | nil =>
      intro _ ps
      cases ps with
      | nil => simp [fuzzySearchOne]
      | cons p ps => simp [fuzzySearchOne]
  | cons c cs ih =>
      intro hnl ps
      have hcs : '\n' ∉ cs := fun h => hnl (List.mem_cons.2 (Or.inr h))
      cases ps with
      | nil => simp [fuzzySearchOne, List.nil_sublist]
      | cons p ps =>
          simp only [fuzzySearchOne, Bool.or_eq_true, Bool.and_eq_true, beq_iff_eq,
            List.map_cons]
          rw [cons_sublist_cons_cases]
          constructor
          · rintro (⟨hpc, ht⟩ | hrest)
            · exact Or.inl ⟨hpc, (fuzzyTail_eq_sublist cs hcs ps).1 ht⟩
            · exact Or.inr (by simpa using (ih hcs (p :: ps)).1 hrest)
          · rintro (⟨hpc, hsub⟩ | hsub)
            · exact Or.inl ⟨hpc, (fuzzyTail_eq_sublist cs hcs ps).2 hsub⟩
            · exact Or.inr ((ih hcs (p :: ps)).2 (by simpa using hsub))

theorem mem_fuzzy_search {entries : List PasswordEntry} {pats : List String}
    {e : PasswordEntry} :
    e ∈ fuzzy_search entries pats ↔
      e ∈ entries ∧ ∀ p ∈ pats, fuzzySearchOne (create_fuzzy_pattern p) e.name.data = true := by
  simp only [fuzzy_search, List.mem_filter, List.all_eq_true, List.mem_map]
  constructor
  · rintro ⟨he, hall⟩
    exact ⟨he, fun p hp => hall _ ⟨p, hp, rfl⟩⟩
  · rintro ⟨he, hall⟩
    refine ⟨he, ?_⟩
    rintro x ⟨p, hp, rfl⟩
    exact hall p hp

theorem smart_search_ok_ne_nil {entries : List PasswordEntry} {arguments : List String}
    {l : List PasswordEntry} (h : smart_search entries arguments = Except.ok l) :
    l ≠ [] := by
  intro hnil
  subst hnil
  by_cases hs : simple_search entries arguments = []
  · by_cases hf : fuzzy_search entries arguments = []
    · by_cases hl : 0 < entries.length
      · simp [smart_search, hs, hf, hl] at h
      · simp [smart_search, hs, hf, hl] at h
    · simp [smart_search, hs, isEmpty_false_of_ne_nil hf] at h
      exact hf h
  · simp [smart_search, isEmpty_false_of_ne_nil hs] at h
    exact hs h

/-- Claim C1: for every set of keywords and every entry of the catalog,
`simple_search` includes the entry exactly when every keyword, lowercased,
is a substring of the lowercased entry name, and the empty keyword set
matches every entry. -/
theorem simple_search_spec (entries : List PasswordEntry) (keywords : List String)
    (e : PasswordEntry) :
    (e ∈ simple_search entries keywords ↔
      e ∈ entries ∧ ∀ kw ∈ keywords,
        ∃ pre post, lowerStr e.name = pre ++ lowerStr kw ++ post)
    ∧ simple_search entries [] = entries := by
  constructor
  · simp only [simple_search, List.mem_filter, List.all_eq_true, List.mem_map]
    constructor
    · rintro ⟨he, hall⟩
      refine ⟨he, fun kw hkw => ?_⟩
      exact (containsChars_iff _ _).1 (hall (lowerStr kw) ⟨kw, hkw, rfl⟩)
    · rintro ⟨he, hall⟩
      refine ⟨he, ?_⟩
      rintro x ⟨kw, hkw, rfl⟩
      exact (containsChars_iff _ _).2 (hall kw hkw)
  · simp [simple_search]

/-- Witness for claim C1: the statement instantiated at a concrete store
and keyword list. -/
theorem simple_search_spec_witness :
    ((⟨"foo", "pw"⟩ : PasswordEntry) ∈ simple_search [⟨"foo", "pw"⟩] ["O"] ↔
      (⟨"foo", "pw"⟩ : PasswordEntry) ∈ [(⟨"foo", "pw"⟩ : PasswordEntry)] ∧
        ∀ kw ∈ ["O"], ∃ pre post,
          lowerStr (PasswordEntry.name ⟨"foo", "pw"⟩) = pre ++ lowerStr kw ++ post)
    ∧ simple_search [(⟨"foo", "pw"⟩ : PasswordEntry)] [] = [⟨"foo", "pw"⟩] :=
  simple_search_spec [⟨"foo", "pw"⟩] ["O"] ⟨"foo", "pw"⟩

/-- Claim C2 counterexample: for the catalog entry named `"a\nb"` and the
single pattern token `"ab"`, the characters of the token do occur in the
name as an ordered subsequence (case-insensitively), yet `fuzzy_search`
does not include the entry, because the interposed `.*` wildcards of the
compiled pattern cannot match across the newline character.  Hence the
claimed equivalence fails at this input. -/
theorem fuzzy_search_newline_counterexample :
    fuzzy_search [⟨"a\nb", "pw"⟩] ["ab"] = [] ∧
    (((("ab" : String)).data.map lowerChar).Sublist ((("a\nb" : String)).data.map lowerChar)) ∧
    ¬ ((⟨"a\nb", "pw"⟩ : PasswordEntry) ∈ fuzzy_search [⟨"a\nb", "pw"⟩] ["ab"] ↔
        (⟨"a\nb", "pw"⟩ : PasswordEntry) ∈ [(⟨"a\nb", "pw"⟩ : PasswordEntry)] ∧
        ∀ p ∈ ["ab"],
          ((p : String).data.map lowerChar).Sublist
            ((PasswordEntry.name ⟨"a\nb", "pw"⟩).data.map lowerChar)) := by
  refine ⟨by decide, by decide, by decide⟩

/-- Claim C2 (amended): `fuzzy_search` includes an entry exactly when every
pattern token matches the entry name in the sense of the compiled regular
expression (ordered, case-insensitive occurrence of the token characters
with wildcard gaps that cannot span a newline); for every entry whose name
contains no newline character this condition coincides with the claimed
ordered-subsequence condition.  Regex-special characters play no role: the
compiled pattern consists of the literal token characters only. -/
theorem fuzzy_search_spec (entries : List PasswordEntry) (pats : List String)
    (e : PasswordEntry) :
    (e ∈ fuzzy_search entries pats ↔
      e ∈ entries ∧ ∀ p ∈ pats,
        fuzzySearchOne (create_fuzzy_pattern p) e.name.data = true)
    ∧ ('\n' ∉ e.name.data →
        (e ∈ fuzzy_search entries pats ↔
          e ∈ entries ∧ ∀ p ∈ pats,
            ((create_fuzzy_pattern p).map lowerChar).Sublist (e.name.data.map lowerChar))) := by
  refine ⟨mem_fuzzy_search, fun hnl => ?_⟩
  rw [mem_fuzzy_search]
  constructor
  · rintro ⟨he, hall⟩
    exact ⟨he, fun p hp => (fuzzySearchOne_eq_sublist _ hnl _).1 (hall p hp)⟩
  · rintro ⟨he, hall⟩
    exact ⟨he, fun p hp => (fuzzySearchOne_eq_sublist _ hnl _).2 (hall p hp)⟩

/-- Witness for claim C2: the newline-free part of the amended statement
instantiated at the store of the repository test suite. -/
theorem fuzzy_search_spec_witness :
    (⟨"Personal/Zabbix", "pw"⟩ : PasswordEntry) ∈
        fuzzy_search [⟨"Personal/Zabbix", "pw"⟩] ["zbx"] ↔
      (⟨"Personal/Zabbix", "pw"⟩ : PasswordEntry) ∈
          [(⟨"Personal/Zabbix", "pw"⟩ : PasswordEntry)] ∧
        ∀ p ∈ ["zbx"],
          ((create_fuzzy_pattern p).map lowerChar).Sublist
            ((PasswordEntry.name ⟨"Personal/Zabbix", "pw"⟩).data.map lowerChar) :=
  (fuzzy_search_spec [⟨"Personal/Zabbix", "pw"⟩] ["zbx"] ⟨"Personal/Zabbix", "pw"⟩).2
    (by decide)

/-- Claim C3: whenever the simple search yields at least one match,
`smart_search` returns exactly the simple-search result, so a fuzzy-only
match is never returned while a simple-search match exists. -/
theorem smart_search_prefers_simple (entries : List PasswordEntry)
    (arguments : List String) (h : simple_search entries arguments ≠ []) :
    smart_search entries arguments = Except.ok (simple_search entries arguments) := by
  simp [smart_search, isEmpty_false_of_ne_nil h]

/-- Witness for claim C3 at a concrete store and keyword. -/
theorem smart_search_prefers_simple_witness :
    simple_search [⟨"foo", "pw"⟩] ["fo"] ≠ [] ∧
    smart_search [⟨"foo", "pw"⟩] ["fo"] =
      Except.ok (simple_search [⟨"foo", "pw"⟩] ["fo"]) :=
  ⟨by decide, smart_search_prefers_simple [⟨"foo", "pw"⟩] ["fo"] (by decide)⟩

/-- Claim C4: `smart_search` reports `EmptyPasswordStoreError` exactly when
both searches found nothing and the catalog is empty, and
`NoMatchingPasswordError` exactly when both searches found nothing and the
catalog is non-empty; in particular these are the only situations in which
either error is raised. -/
theorem smart_search_error_spec (entries : List PasswordEntry)
    (arguments : List String) :
    (smart_search entries arguments = Except.error StoreError.emptyPasswordStore ↔
      simple_search entries arguments = [] ∧ fuzzy_search entries arguments = [] ∧
        entries = [])
    ∧ (smart_search entries arguments = Except.error StoreError.noMatchingPassword ↔
      simple_search entries arguments = [] ∧ fuzzy_search entries arguments = [] ∧
        entries ≠ []) := by
  by_cases hs : simple_search entries arguments = []
  · by_cases hf : fuzzy_search entries arguments = []
    · by_cases he : entries = []
      · subst he
        simp [smart_search, hs, hf]
      · have hlen : 0 < entries.length := List.length_pos.2 he
        simp [smart_search, hs, hf, hlen, he]
    · simp [smart_search, hs, isEmpty_false_of_ne_nil hf, hf]
  · simp [smart_search, isEmpty_false_of_ne_nil hs, hs]

/-- Witness for claim C4: the statement instantiated at a concrete empty
store and a concrete keyword. -/
theorem smart_search_error_spec_witness :
    (smart_search [] ["x"] = Except.error StoreError.emptyPasswordStore ↔
      simple_search [] ["x"] = [] ∧ fuzzy_search [] ["x"] = [] ∧
        ([] : List PasswordEntry) = [])
    ∧ (smart_search [] ["x"] = Except.error StoreError.noMatchingPassword ↔
      simple_search [] ["x"] = [] ∧ fuzzy_search [] ["x"] = [] ∧
        ([] : List PasswordEntry) ≠ []) :=
  smart_search_error_spec [] ["x"]

/-- Claim C10: whenever `smart_search` returns instead of raising, the
returned list is non-empty, and consequently the indexing operations of
`select_entry` (`matches[0]` in the single-match branch and the lookup of
the label chosen at the prompt) never access an empty or out-of-range
position, for any chooser that returns one of the labels offered to it. -/
theorem select_entry_safe (entries : List PasswordEntry) (arguments : List String) :
    (∀ l, smart_search entries arguments = Except.ok l → l ≠ [])
    ∧ ∀ choose : List String → String,
        (∀ ls, ls ≠ [] → choose ls ∈ ls) →
        ∀ o, select_entry entries arguments choose = Except.ok o → o.isSome = true := by
  constructor
  · exact fun l h => smart_search_ok_ne_nil h
  · intro choose hchoose o ho
    unfold select_entry at ho
    split at ho
    · exact absurd ho (by simp)
    · next found hss =>
        have hne : found ≠ [] := smart_search_ok_ne_nil hss
        by_cases hlen : 1 < found.length
        · rw [if_pos hlen] at ho
          injection ho with ho2
          have hmem : choose (found.map PasswordEntry.name) ∈ found.map PasswordEntry.name :=
            hchoose _ (fun hmn => hne (List.map_eq_nil_iff.1 hmn))
          have hidx :
              (found.map PasswordEntry.name).indexOf
                  (choose (found.map PasswordEntry.name)) <
                (found.map PasswordEntry.name).length :=
            List.indexOf_lt_length.2 hmem
          have hidx2 :
              (found.map PasswordEntry.name).indexOf
                  (choose (found.map PasswordEntry.name)) < found.length := by
            simpa using hidx
          rw [← ho2, List.get?_eq_get hidx2]
          rfl
        · rw [if_neg hlen] at ho
          injection ho with ho2
          have h0 : 0 < found.length := List.length_pos.2 hne
          rw [← ho2, List.get?_eq_get h0]
          rfl

/-- Witness for claim C10: the safety statement applied at a concrete
store, argument and chooser, with all hypotheses discharged. -/
theorem select_entry_safe_witness :
    Option.isSome (some (⟨"abc", "pw"⟩ : PasswordEntry)) = true :=
  (select_entry_safe [⟨"abc", "pw"⟩] ["b"]).2 (fun ls => ls.headD "")
    (fun ls hls => by
      cases ls with
      | nil => exact absurd rfl hls
      | cons a l => simp [List.headD])
    (some ⟨"abc", "pw"⟩) (by rfl)

/-! Helper lemmas about line splitting, stripping and the title. -/

theorem linesOf_append (l1 : List Char) (rest : List Char) (h : '\n' ∉ l1) :
    linesOf (l1 ++ '\n' :: rest) = l1 :: linesOf rest := by
  induction l1 with
  | nil => simp [linesOf]
  | cons c l1 ih =>
      have hc : c ≠ '\n' := fun hc => h (by simp [hc])
      have hrec := ih (fun hm => h (List.mem_cons_of_mem _ hm))
      rw [List.cons_append, linesOf, if_neg hc, hrec]

theorem linesOf_no_nl (l1 : List Char) (h : '\n' ∉ l1) (hne : l1 ≠ []) :
    linesOf l1 = [l1] := by
  induction l1 with
  | nil => exact absurd rfl hne
  | cons c l1 ih =>
      have hc : c ≠ '\n' := fun hc => h (by simp [hc])
      cases l1 with
      | nil => rw [linesOf, if_neg hc]; rfl
      | cons d l2 =>
          have hrec := ih (fun hm => h (List.mem_cons_of_mem _ hm)) (by simp)
          rw [linesOf, if_neg hc, hrec]

theorem linesKeepOf_append (l1 : List Char) (rest : List Char) (h : '\n' ∉ l1) :
    linesKeepOf (l1 ++ '\n' :: rest) = (l1 ++ ['\n']) :: linesKeepOf rest := by
  induction l1 with
  | nil => simp [linesKeepOf]
  | cons c l1 ih =>
      have hc : c ≠ '\n' := fun hc => h (by simp [hc])
      have hrec := ih (fun hm => h (List.mem_cons_of_mem _ hm))
      rw [List.cons_append, linesKeepOf, if_neg hc, hrec]
      rfl

theorem linesKeepOf_no_nl (l1 : List Char) (h : '\n' ∉ l1) (hne : l1 ≠ []) :
    linesKeepOf l1 = [l1] := by
  induction l1 with
  | nil => exact absurd rfl hne
  | cons c l1 ih =>
      have hc : c ≠ '\n' := fun hc => h (by simp [hc])
      cases l1 with
      | nil => rw [linesKeepOf, if_neg hc]; rfl
      | cons d l2 =>
          have hrec := ih (fun hm => h (List.mem_cons_of_mem _ hm)) (by simp)
          rw [linesKeepOf, if_neg hc, hrec]

theorem mem_linesOf_no_nl : ∀ cs : List Char, ∀ l ∈ linesOf cs, '\n' ∉ l := by
  intro cs
  induction cs with
  | nil => intro l hl; simp [linesOf] at hl
  | cons c rest ih =>
      intro l hl
      by_cases hc : c = '\n'
      · rw [linesOf, if_pos hc] at hl
        rcases List.mem_cons.1 hl with rfl | hl
        · simp
        · exact ih l hl
      · rw [linesOf, if_neg hc] at hl
        rcases hrest : linesOf rest with _ | ⟨l0, ls⟩
        · rw [hrest] at hl
          rcases List.mem_cons.1 hl with rfl | hl
          · simpa using Ne.symm hc
          · simp at hl
        · rw [hrest] at hl
          rcases List.mem_cons.1 hl with rfl | hl
          · intro hm
            rcases List.mem_cons.1 hm with hm | hm
            · exact hc hm.symm
            · exact ih l0 (by rw [hrest]; exact List.mem_cons_self _ _) hm
          · exact ih l (by rw [hrest]; exact List.mem_cons_of_mem _ hl)

theorem mem_pyStrip_sub {c : Char} {l : List Char} (h : c ∈ pyStrip l) : c ∈ l := by
  have h1 := List.mem_reverse.1 h
  have h2 := (List.dropWhile_sublist (l := (l.dropWhile isWS).reverse) isWS).subset h1
  have h3 := List.mem_reverse.1 h2
  exact (List.dropWhile_sublist (l := l) isWS).subset h3

theorem mem_dropWhile_keep {c : Char} {p : Char → Bool} :
    ∀ {l : List Char}, c ∈ l → p c = false → c ∈ l.dropWhile p := by
  intro l
  induction l with
  | nil => intro h _; simp at h
  | cons a l ih =>
      intro h hp
      rw [List.dropWhile_cons]
      by_cases ha : p a = true
      · rw [if_pos ha]
        rcases List.mem_cons.1 h with rfl | h
        · rw [hp] at ha; exact absurd ha (by simp)
        · exact ih h hp
      · rw [if_neg ha]
        exact h

theorem mem_pyStrip_keep {c : Char} {l : List Char} (h : c ∈ l)
    (hp : isWS c = false) : c ∈ pyStrip l := by
  unfold pyStrip
  refine List.mem_reverse.2 (mem_dropWhile_keep (List.mem_reverse.2 ?_) hp)
  exact mem_dropWhile_keep h hp

theorem mem_splitOnChar {sep : Char} : ∀ {cs : List Char} {p : List Char},
    p ∈ splitOnChar sep cs → ∀ {c : Char}, c ∈ p → c ∈ cs := by
  intro cs
  induction cs with
  | nil =>
      intro p hp c hc
      rcases List.mem_cons.1 hp with rfl | hp
      · simp at hc
      · simp at hp
  | cons a rest ih =>
      intro p hp c hc
      by_cases ha : a = sep
      · rw [splitOnChar, if_pos ha] at hp
        rcases List.mem_cons.1 hp with rfl | hp
        · simp at hc
        · exact List.mem_cons_of_mem _ (ih hp hc)
      · rw [splitOnChar, if_neg ha] at hp
        rcases hrest : splitOnChar sep rest with _ | ⟨q, qs⟩
        · rw [hrest] at hp
          rcases List.mem_cons.1 hp with rfl | hp
          · have hca : c = a := by simpa using hc
            subst hca
            exact List.mem_cons_self _ _
          · simp at hp
        · rw [hrest] at hp
          rcases List.mem_cons.1 hp with rfl | hp
          · rcases List.mem_cons.1 hc with rfl | hc
            · exact List.mem_cons_self _ _
            · exact List.mem_cons_of_mem _
                (ih (by rw [hrest]; exact List.mem_cons_self _ _) hc)
          · exact List.mem_cons_of_mem _
              (ih (by rw [hrest]; exact List.mem_cons_of_mem _ hp) hc)

theorem joinSep_cons (sep t : List Char) (ts : List (List Char)) :
    ∃ rest, joinSep sep (t :: ts) = t ++ rest := by
  cases ts with
  | nil => exact ⟨[], by simp [joinSep]⟩
  | cons t2 ts => exact ⟨sep ++ joinSep sep (t2 :: ts), by simp [joinSep]⟩

theorem mem_joinSep {sep : List Char} : ∀ {ts : List (List Char)} {c : Char},
    c ∈ joinSep sep ts → (∃ t ∈ ts, c ∈ t) ∨ c ∈ sep := by
  intro ts
  induction ts with
  | nil => intro c hc; simp [joinSep] at hc
  | cons t ts ih =>
      intro c hc
      cases ts with
      | nil =>
          rw [joinSep] at hc
          exact Or.inl ⟨t, List.mem_cons_self _ _, hc⟩
      | cons t2 ts2 =>
          have hc2 : c ∈ (t ++ sep) ++ joinSep sep (t2 :: ts2) := hc
          rcases List.mem_append.1 hc2 with hc3 | hc3
          · rcases List.mem_append.1 hc3 with hc4 | hc4
            · exact Or.inl ⟨t, List.mem_cons_self _ _, hc4⟩
            · exact Or.inr hc4
          · rcases ih hc3 with ⟨t3, ht3, hc4⟩ | hc4
            · exact Or.inl ⟨t3, List.mem_cons_of_mem _ ht3, hc4⟩
            · exact Or.inr hc4

theorem mem_hfSplit {sep : Char} {cs : List Char} {t : List Char}
    (ht : t ∈ hfSplit sep cs) :
    ∃ raw ∈ splitOnChar sep cs,
      raw ≠ [] ∧ raw.all isWS = false ∧ t = pyStrip raw := by
  simp only [hfSplit, List.mem_map, List.mem_filter] at ht
  rcases ht with ⟨raw, ⟨hmem, hgood⟩, rfl⟩
  refine ⟨raw, hmem, ?_, ?_, rfl⟩
  · intro hnil
    subst hnil
    simp at hgood
  · rcases hall : raw.all isWS with _ | _
    · rfl
    · exfalso
      cases raw with
      | nil => simp at hgood
      | cons a l =>
          rw [Bool.not_eq_true'] at hgood
          simp [pyIsSpace, hall] at hgood

theorem mkTitle_chars {name : List Char} {c : Char} (h : c ∈ mkTitle name) :
    c ∈ name ∨ c = ' ' ∨ c = '/' := by
  rcases mem_joinSep h with ⟨t, ht, hc⟩ | hc
  · rcases mem_hfSplit ht with ⟨raw, hraw, -, -, rfl⟩
    exact Or.inl (mem_splitOnChar hraw (mem_pyStrip_sub hc))
  · rcases List.mem_cons.1 hc with rfl | hc
    · exact Or.inr (Or.inl rfl)
    · rcases List.mem_cons.1 hc with rfl | hc
      · exact Or.inr (Or.inr rfl)
      · rcases List.mem_cons.1 hc with rfl | hc
        · exact Or.inr (Or.inl rfl)
        · simp at hc

theorem mkTitle_has_nonWS {name : List Char} (h : mkTitle name ≠ []) :
    ∃ c ∈ mkTitle name, isWS c = false := by
  rcases hts : hfSplit '/' name with _ | ⟨t0, ts⟩
  · exfalso
    apply h
    unfold mkTitle
    rw [hts]
    rfl
  · have ht0 : t0 ∈ hfSplit '/' name := by rw [hts]; exact List.mem_cons_self _ _
    rcases mem_hfSplit ht0 with ⟨raw, -, hne, hall, hstrip⟩
    have hex : ∃ c ∈ raw, isWS c = false := by
      by_contra hcon
      push_neg at hcon
      have hallt : raw.all isWS = true := List.all_eq_true.2 (fun c hc => by
        rcases hx : isWS c with _ | _
        · exact absurd hx (hcon c hc)
        · rfl)
      rw [hallt] at hall
      exact absurd hall (by simp)
    rcases hex with ⟨c, hcmem, hcws⟩
    have hct0 : c ∈ t0 := hstrip ▸ mem_pyStrip_keep hcmem hcws
    rcases joinSep_cons [' ', '/', ' '] t0 ts with ⟨rest, heq⟩
    unfold mkTitle
    rw [hts, heq]
    exact ⟨c, List.mem_append.2 (Or.inl hct0), hcws⟩

theorem emptyLine_false_of {c : Char} {l : List Char} (h : c ∈ l)
    (hws : isWS c = false) : emptyLine l = false := by
  rcases hx : emptyLine l with _ | _
  · rfl
  · exfalso
    have := (List.all_eq_true.1 hx) c h
    rw [hws] at this
    exact absurd this (by simp)

theorem pyIsSpace_false_of {c : Char} {l : List Char} (h : c ∈ l)
    (hws : isWS c = false) : pyIsSpace l = false := by
  rcases hx : pyIsSpace l with _ | _
  · rfl
  · exfalso
    simp only [pyIsSpace, Bool.and_eq_true] at hx
    have := List.all_eq_true.1 hx.2 c h
    rw [hws] at this
    exact absurd this (by simp)

theorem highlight_line_nocolors (padding : Bool) (l : List Char) :
    highlight_line false padding l = padIndent padding l := by
  cases h : kvMatch l with
  | none => simp [highlight_line, padIndent, h]
  | some g => simp [highlight_line, padIndent, h]

theorem mem_padIndent {c : Char} {l : List Char} (padding : Bool) (h : c ∈ l) :
    c ∈ padIndent padding l := by
  cases padding <;> simp [padIndent, h]

theorem nl_not_mem_padIndent {l : List Char} (padding : Bool) (h : '\n' ∉ l) :
    '\n' ∉ padIndent padding l := by
  cases padding with
  | false => simpa [padIndent] using h
  | true =>
      show '\n' ∉ ' ' :: ' ' :: l
      intro hm
      rcases List.mem_cons.1 hm with h1 | hm
      · exact absurd h1 (by decide)
      · rcases List.mem_cons.1 hm with h1 | hm
        · exact absurd h1 (by decide)
        · exact h hm

/-- Claim C5 counterexample: with colors disabled, the key-value line
`"Key:   Value"` (which matches `KEY_VALUE_PATTERN` with captured key
`"Key"` and value `"Value"`) is not re-rendered with exactly one space
after the colon: `format_text` keeps the line verbatim, refuting the claim
that the re-rendering happens regardless of whether colors are enabled. -/
theorem format_text_rerender_counterexample :
    kvMatch (String.data "Key:   Value") =
        some (String.data "Key", String.data "Value") ∧
    format_text ⟨"x", "pw\nKey:   Value"⟩ false false false [] =
        some "x\n\nKey:   Value" ∧
    format_text ⟨"x", "pw\nKey:   Value"⟩ false false false [] ≠
        some "x\n\nKey: Value" :=
  ⟨by decide, by decide, by decide⟩

/-- Claim C5 (amended): inside `format_text`, a line matching the key-value
shape is re-rendered as highlighted `"<key>: <value>"` (single space after
the colon, key colored, URL tokens underlined) only when colors are
enabled; when colors are disabled every line, matching or not, is passed
through verbatim apart from the two-space padding indent. -/
theorem highlight_line_spec (padding : Bool) (line : List Char) :
    highlight_line false padding line = padIndent padding line
    ∧ ∀ g1 g2, kvMatch line = some (g1, g2) →
        highlight_line true padding line =
          padIndent padding
            (ansi_wrap ['3', '2'] (pyStrip g1 ++ [':']) ++ ' ' ::
              joinSep [' ']
                ((pySplitWS (pyStrip g2)).map fun t =>
                  if containsChars [':', '/', '/'] t then ansi_wrap ['4'] t else t)) := by
  refine ⟨highlight_line_nocolors padding line, ?_⟩
  intro g1 g2 h
  cases padding <;> simp [highlight_line, padIndent, h]

/-- Witness for claim C5: the colored re-rendering applied to a concrete
matching line. -/
theorem highlight_line_spec_witness :
    highlight_line true false (String.data "Key: http://example.com") =
      padIndent false
        (ansi_wrap ['3', '2'] (pyStrip (String.data "Key") ++ [':']) ++ ' ' ::
          joinSep [' ']
            ((pySplitWS (pyStrip (String.data "http://example.com"))).map fun t =>
              if containsChars [':', '/', '/'] t then ansi_wrap ['4'] t else t)) :=
  (highlight_line_spec false (String.data "Key: http://example.com")).2
    (String.data "Key") (String.data "http://example.com") (by decide)

/-- Claim C6 counterexample: the entry named `"x"` with raw text
`"secret"` has an empty body, yet with `include_password` enabled the
formatted text is not the bare password line: the two-line title block is
still prepended (the password line makes the text non-empty).  The
password-excluded half of the claim does hold at this input. -/
theorem format_text_empty_body_counterexample :
    format_text ⟨"x", "secret"⟩ true false false [] = some "x\n\nPassword: secret" ∧
    format_text ⟨"x", "secret"⟩ true false false [] ≠ some "Password: secret" ∧
    format_text ⟨"x", "secret"⟩ false false false [] = some "" :=
  ⟨by decide, by decide, by decide⟩

/-- Claim C6 (amended): for an entry whose body (the lines after the
password line, after filter removal and blank-line trimming) is empty, the
formatted text is empty when the password is excluded; when the password is
included the two-line title block IS still added, because the prepended
password line makes the text non-empty, so the result consists of the
title, a blank separator line, and the `"Password: <value>"` line (stated
with colors disabled for the password half, for entry names that contain no
newline and produce a non-empty title). -/
theorem format_text_empty_body (name text : List Char) (use_colors padding : Bool)
    (filters : List (List Char → Bool)) (pwline : List Char) (body : List (List Char))
    (hlines : linesOf text = pwline :: body)
    (hbody : format_body body filters = []) :
    format_text_core name text false use_colors padding filters = some []
    ∧ ('\n' ∉ name → mkTitle name ≠ [] →
        format_text_core name text true false padding filters =
          some (if padding
            then '\n' :: joinNL [padIndent padding (mkTitle name), padIndent padding [],
                   padIndent padding (String.data "Password: " ++ pyStrip pwline)] ++ ['\n']
            else joinNL [padIndent padding (mkTitle name), padIndent padding [],
                   padIndent padding (String.data "Password: " ++ pyStrip pwline)])) := by
  constructor
  · simp only [format_text_core, hlines]
    rw [hbody]
    have h1 : add_password false (pyStrip pwline) [] = [] := by simp [add_password]
    rw [h1]
    have h2 : add_title use_colors name [] = [] := by simp [add_title]
    rw [h2]
    have h3 : finalize use_colors padding [] = [] := by
      simp [finalize, linesOf, joinNL, trim_empty_lines, linesKeepOf, joinAll]
    rw [h3]
  · intro hname htitle
    have hpwline_nl : '\n' ∉ pwline :=
      mem_linesOf_no_nl text pwline (by rw [hlines]; exact List.mem_cons_self _ _)
    have hpw_nl : '\n' ∉ pyStrip pwline := fun hm => hpwline_nl (mem_pyStrip_sub hm)
    have htitle_nl : '\n' ∉ mkTitle name := by
      intro hm
      rcases mkTitle_chars hm with hmem | heq | heq
      · exact hname hmem
      · exact absurd heq (by decide)
      · exact absurd heq (by decide)
    obtain ⟨c0, hc0mem, hc0ws⟩ := mkTitle_has_nonWS htitle
    have hPdata : String.data "Password: " =
        ['P', 'a', 's', 's', 'w', 'o', 'r', 'd', ':', ' '] := by decide
    set pw := pyStrip pwline with hpw
    set Pline : List Char := String.data "Password: " ++ pw with hPline
    have hPline_nl : '\n' ∉ Pline := by
      intro hm
      rcases List.mem_append.1 hm with hm | hm
      · rw [hPdata] at hm
        exact absurd hm (by decide)
      · exact hpw_nl hm
    have hPmem : 'P' ∈ Pline := by
      rw [hPline, hPdata]
      exact List.mem_cons_self _ _
    simp only [format_text_core, hlines]
    rw [hbody]
    have h1 : add_password true pw [] = Pline ++ ['\n'] := by
      simp [add_password, hPline, List.append_assoc]
    rw [h1]
    have hPne2 : Pline ++ ['\n'] ≠ [] := by simp
    have hPws : pyIsSpace (Pline ++ ['\n']) = false :=
      pyIsSpace_false_of (List.mem_append.2 (Or.inl hPmem)) (by decide)
    have h2 : add_title false name (Pline ++ ['\n']) =
        mkTitle name ++ '\n' :: '\n' :: (Pline ++ ['\n']) := by
      simp only [add_title, if_pos (And.intro hPne2 hPws)]
      rfl
    rw [h2]
    have e2 : linesOf (Pline ++ ['\n']) = [Pline] := by
      have h := linesOf_append Pline [] hPline_nl
      simpa [linesOf] using h
    have hlines2 : linesOf (mkTitle name ++ '\n' :: '\n' :: (Pline ++ ['\n'])) =
        [mkTitle name, [], Pline] := by
      rw [linesOf_append _ _ htitle_nl]
      have e1 : linesOf ('\n' :: (Pline ++ ['\n'])) = [] :: linesOf (Pline ++ ['\n']) := by
        rw [linesOf, if_pos rfl]
      rw [e1, e2]
    unfold finalize
    rw [hlines2]
    simp only [List.map_cons, List.map_nil, highlight_line_nocolors]
    set A := padIndent padding (mkTitle name) with hA
    set B := padIndent padding ([] : List Char) with hB
    set C := padIndent padding Pline with hC
    have hA_nl : '\n' ∉ A := nl_not_mem_padIndent padding htitle_nl
    have hB_nl : '\n' ∉ B := nl_not_mem_padIndent padding (by simp)
    have hC_nl : '\n' ∉ C := nl_not_mem_padIndent padding hPline_nl
    have hCP : 'P' ∈ C := mem_padIndent padding hPmem
    have hC_ne : C ≠ [] := by
      intro hnil
      rw [hnil] at hCP
      simp at hCP
    have hjoin : joinNL [A, B, C] = A ++ '\n' :: (B ++ '\n' :: C) := by
      simp [joinNL]
    have hkeep : linesKeepOf (A ++ '\n' :: (B ++ '\n' :: C)) =
        [A ++ ['\n'], B ++ ['\n'], C] := by
      rw [linesKeepOf_append _ _ hA_nl, linesKeepOf_append _ _ hB_nl,
        linesKeepOf_no_nl C hC_nl hC_ne]
    have hA_empty : emptyLine (A ++ ['\n']) = false :=
      emptyLine_false_of (List.mem_append.2 (Or.inl (mem_padIndent padding hc0mem))) hc0ws
    have hC_empty : emptyLine C = false := emptyLine_false_of hCP (by decide)
    have htrim : trim_empty_lines (A ++ '\n' :: (B ++ '\n' :: C)) =
        A ++ '\n' :: (B ++ '\n' :: C) := by
      unfold trim_empty_lines
      rw [hkeep]
      rw [List.dropWhile_cons, if_neg (by rw [hA_empty]; simp)]
      have hrev : ([A ++ ['\n'], B ++ ['\n'], C] : List (List Char)).reverse =
          [C, B ++ ['\n'], A ++ ['\n']] := by simp
      rw [hrev]
      rw [List.dropWhile_cons, if_neg (by rw [hC_empty]; simp)]
      have hrev2 : ([C, B ++ ['\n'], A ++ ['\n']] : List (List Char)).reverse =
          [A ++ ['\n'], B ++ ['\n'], C] := by simp
      rw [hrev2]
      simp [joinAll]
    rw [hjoin, htrim]
    have hJne : A ++ '\n' :: (B ++ '\n' :: C) ≠ [] := by simp
    by_cases hp : padding = true
    · rw [if_pos (And.intro hJne hp), if_pos hp]
    · rw [if_neg (fun h => hp h.2), if_neg hp]

/-- Witness for claim C6: the amended statement applied to the entry named
`"x"` with text `"secret"`, all hypotheses discharged by evaluation. -/
theorem format_text_empty_body_witness :
    format_text_core (String.data "x") (String.data "secret") false false true [] = some []
    ∧ format_text_core (String.data "x") (String.data "secret") true false true [] =
        some (String.data "\n  x\n  \n  Password: secret\n") := by
  constructor
  · exact (format_text_empty_body (String.data "x") (String.data "secret") false true []
      (String.data "secret") [] (by decide) (by decide)).1
  · rw [(format_text_empty_body (String.data "x") (String.data "secret") false true []
      (String.data "secret") [] (by decide) (by decide)).2 (by decide) (by decide)]
    decide

/-- Claim C7 counterexample: for the entry named `"x"` with raw text
`"secret\n\nKey: http://example.com"`, colors disabled, padding enabled and
the password included, the formatted text does not contain a blank line
between the password line and the `"Key: ..."` line (under either reading
of a blank line, the empty line or the two-space indented line): the
leading blank line of the body is trimmed away before the password line is
prepended, so the output claimed by the specification is not produced. -/
theorem format_text_roundtrip_counterexample :
    format_text ⟨"x", "secret\n\nKey: http://example.com"⟩ true false true [] ≠
        some "\n  x\n\n  Password: secret\n\n  Key: http://example.com\n" ∧
    format_text ⟨"x", "secret\n\nKey: http://example.com"⟩ true false true [] ≠
        some "\n  x\n  \n  Password: secret\n  \n  Key: http://example.com\n" :=
  ⟨by decide, by decide⟩

/-- Claim C7 (amended): for the entry named `"x"` with raw text
`"secret\n\nKey: http://example.com"`, colors disabled, padding enabled and
the password included, the output is the two-space indented title, a
two-space blank separator line, the password line and the key-value line
(with no blank line between the password and the key-value line), wrapped
in one leading and one trailing newline. -/
theorem format_text_roundtrip :
    format_text ⟨"x", "secret\n\nKey: http://example.com"⟩ true false true [] =
      some "\n  x\n  \n  Password: secret\n  Key: http://example.com\n" := by
  decide

/-- Claim C8: computing the entry listing of a store whose directory does
not exist yields `MissingPasswordStoreError` with an empty trace of
external commands — the existence check runs before any listing command,
so the error never originates from the listing command itself — and this
is the only situation in which the error arises: with an existing
directory the `find` listing is invoked and the parsed, naturally sorted
entries are returned. -/
theorem store_entries_missing_spec (directory_exists : Bool) (listing : List Char)
    (fetch : String → String) :
    ((store_entries directory_exists listing fetch).2 =
        Except.error StoreError.missingPasswordStore ↔ directory_exists = false)
    ∧ ((store_entries directory_exists listing fetch).1 = [] ↔ directory_exists = false)
    ∧ (directory_exists = false →
        store_entries directory_exists listing fetch =
          ([], Except.error StoreError.missingPasswordStore))
    ∧ (directory_exists = true →
        store_entries directory_exists listing fetch =
          ([ExtCall.findFiles],
            Except.ok (natsortByName (parse_listing listing fetch)))) := by
  cases directory_exists <;>
    simp [store_entries, ensure_directory_exists]

/-- Witness for claim C8: the statement applied to a missing directory and
to an existing one holding a single entry. -/
theorem store_entries_missing_spec_witness :
    store_entries false (String.data "./foo.gpg\x00") (fun _ => "") =
        ([], Except.error StoreError.missingPasswordStore)
    ∧ store_entries true (String.data "./foo.gpg\x00") (fun _ => "") =
        ([ExtCall.findFiles],
          Except.ok (natsortByName (parse_listing (String.data "./foo.gpg\x00")
            (fun _ => "")))) :=
  ⟨(store_entries_missing_spec false (String.data "./foo.gpg\x00") (fun _ => "")).2.2.1 rfl,
   (store_entries_missing_spec true (String.data "./foo.gpg\x00") (fun _ => "")).2.2.2 rfl⟩

/-- Claim C9: the catalog entries of the multi-store `QuickPass` are a
permutation of the concatenation of the configured stores in store order,
pairwise ordered by the natural-sort relation on entry names; in
particular the names `["foo2", "foo10", "foo1"]` come out as
`["foo1", "foo2", "foo10"]` because digit runs compare numerically. -/
theorem quickpass_entries_spec (stores : List (List PasswordEntry)) :
    (quickpass_entries stores).Perm stores.flatten
    ∧ (quickpass_entries stores).Pairwise (fun e1 e2 => natLE e1.name e2.name = true)
    ∧ (quickpass_entries [[⟨"foo2", ""⟩, ⟨"foo10", ""⟩, ⟨"foo1", ""⟩]]).map
        PasswordEntry.name = ["foo1", "foo2", "foo10"] := by
  haveI htrans : IsTrans PasswordEntry (fun e1 e2 => natLE e1.name e2.name = true) := by
    constructor
    intro a b c hab hbc
    simp only [natLE, decide_eq_true_eq] at *
    exact le_trans hab hbc
  haveI htotal : IsTotal PasswordEntry (fun e1 e2 => natLE e1.name e2.name = true) := by
    constructor
    intro a b
    simp only [natLE, decide_eq_true_eq]
    exact le_total (natKey a.name) (natKey b.name)
  exact ⟨List.perm_insertionSort _ _, List.sorted_insertionSort _ _, by decide⟩

end Qpass
